import Mathlib

/-!
Verification development for the similarity-threshold dataset partitioner
(`skchem.cross_validation.similarity_threshold`).

The Python source is shallowly embedded: pure fragments become Lean
functions on `Nat`/`ℚ` lists, object attribute mutation becomes explicit
state passing on a `SimState` structure, and the external SciPy scalar
minimizer is abstracted as a function-valued parameter.  Similarity values
are modelled exactly over `ℚ` (the spec's floating-point tolerance becomes
exact equality).
-/

namespace SkChem

/-! ### Cluster assigner (`SimThresholdSplit._cluster`)

`clustered = np.arange(self.n_instances_)` and then, for each pair
`(i, j)`, the smaller of the two current labels replaces the larger
throughout the array. -/

/-- One iteration of the loop body of `_cluster`: look up the two current
labels and relabel every occurrence of the larger to the smaller
(the `else` branch also covers equal labels, where the map is a no-op). -/
def clusterStep (cl : List ℕ) (p : ℕ × ℕ) : List ℕ :=
  let iClust := cl.getD p.1 0
  let jClust := cl.getD p.2 0
  if iClust < jClust then cl.map (fun x => if x = jClust then iClust else x)
  else cl.map (fun x => if x = iClust then jClust else x)

/-- The `_cluster` routine: start from `np.arange(n)` and fold the relabelling step over
the pair list in order. -/
def cluster (n : ℕ) (pairs : List (ℕ × ℕ)) : List ℕ :=
  pairs.foldl clusterStep (List.range n)

/-- Two items are adjacent when some given pair joins them (in either
orientation). -/
def adjacentIn (pairs : List (ℕ × ℕ)) (a b : ℕ) : Prop :=
  (a, b) ∈ pairs ∨ (b, a) ∈ pairs

/-- Connectivity by a chain of given pairs: the reflexive-transitive
closure of adjacency. -/
def connectedIn (pairs : List (ℕ × ℕ)) : ℕ → ℕ → Prop :=
  Relation.ReflTransGen (adjacentIn pairs)

lemma adjacentIn_symm {pairs : List (ℕ × ℕ)} {a b : ℕ}
    (h : adjacentIn pairs a b) : adjacentIn pairs b a := h.symm

lemma connectedIn_refl {pairs : List (ℕ × ℕ)} {a : ℕ} : connectedIn pairs a a :=
  Relation.ReflTransGen.refl

lemma connectedIn_symm {pairs : List (ℕ × ℕ)} {a b : ℕ}
    (h : connectedIn pairs a b) : connectedIn pairs b a :=
  Relation.ReflTransGen.symmetric (fun _ _ hab => adjacentIn_symm hab) h

lemma connectedIn_trans {pairs : List (ℕ × ℕ)} {a b c : ℕ}
    (h₁ : connectedIn pairs a b) (h₂ : connectedIn pairs b c) :
    connectedIn pairs a c :=
  Relation.ReflTransGen.trans h₁ h₂

lemma connectedIn_nil {a b : ℕ} (h : connectedIn [] a b) : a = b := by
  induction h with
  | refl => rfl
  | tail _ hadj _ => rcases hadj with h' | h' <;> simp at h'

lemma connectedIn_mono {P Q : List (ℕ × ℕ)} {a b : ℕ}
    (hsub : ∀ p ∈ P, p ∈ Q) (h : connectedIn P a b) : connectedIn Q a b := by
  refine Relation.ReflTransGen.mono ?_ h
  intro x y hxy
  rcases hxy with h' | h'
  · exact Or.inl (hsub _ h')
  · exact Or.inr (hsub _ h')

lemma connectedIn_append_left {P : List (ℕ × ℕ)} (Q : List (ℕ × ℕ)) {a b : ℕ}
    (h : connectedIn P a b) : connectedIn (P ++ Q) a b :=
  connectedIn_mono (fun _ hp => List.mem_append_left Q hp) h

/-- Decomposition of connectivity after appending a single pair `(i, j)`:
either the chain avoids the new pair, or it crosses it in one of the two
directions (any multiple crossing collapses by transitivity). -/
lemma connectedIn_append_single {P : List (ℕ × ℕ)} {i j a b : ℕ} :
    connectedIn (P ++ [(i, j)]) a b ↔
      connectedIn P a b ∨ (connectedIn P a i ∧ connectedIn P j b) ∨
        (connectedIn P a j ∧ connectedIn P i b) := by
  constructor
  · intro h
    induction h with
    | refl => exact Or.inl Relation.ReflTransGen.refl
    | @tail b c _ hadj ih =>
      have hcases : adjacentIn P b c ∨ (b = i ∧ c = j) ∨ (b = j ∧ c = i) := by
        rcases hadj with h' | h' <;> rw [List.mem_append] at h'
        · rcases h' with h' | h'
          · exact Or.inl (Or.inl h')
          · simp only [List.mem_singleton, Prod.mk.injEq] at h'
            exact Or.inr (Or.inl h')
        · rcases h' with h' | h'
          · exact Or.inl (Or.inr h')
          · simp only [List.mem_singleton, Prod.mk.injEq] at h'
            exact Or.inr (Or.inr ⟨h'.2, h'.1⟩)
      rcases hcases with hadj' | ⟨hb, hc⟩ | ⟨hb, hc⟩
      · rcases ih with h₁ | ⟨h₁, h₂⟩ | ⟨h₁, h₂⟩
        · exact Or.inl (h₁.tail hadj')
        · exact Or.inr (Or.inl ⟨h₁, h₂.tail hadj'⟩)
        · exact Or.inr (Or.inr ⟨h₁, h₂.tail hadj'⟩)
      · subst hb; subst hc
        rcases ih with h₁ | ⟨h₁, h₂⟩ | ⟨h₁, h₂⟩
        · exact Or.inr (Or.inl ⟨h₁, Relation.ReflTransGen.refl⟩)
        · exact Or.inr (Or.inl ⟨h₁, Relation.ReflTransGen.refl⟩)
        · exact Or.inl h₁
      · subst hb; subst hc
        rcases ih with h₁ | ⟨h₁, h₂⟩ | ⟨h₁, h₂⟩
        · exact Or.inr (Or.inr ⟨h₁, Relation.ReflTransGen.refl⟩)
        · exact Or.inl h₁
        · exact Or.inr (Or.inr ⟨h₁, Relation.ReflTransGen.refl⟩)
  · have hmem : (i, j) ∈ P ++ [(i, j)] := List.mem_append_right P (by simp)
    have hij : connectedIn (P ++ [(i, j)]) i j :=
      Relation.ReflTransGen.single (Or.inl hmem)
    rintro (h | ⟨h₁, h₂⟩ | ⟨h₁, h₂⟩)
    · exact connectedIn_append_left _ h
    · exact connectedIn_trans (connectedIn_trans (connectedIn_append_left _ h₁) hij)
        (connectedIn_append_left _ h₂)
    · exact connectedIn_trans
        (connectedIn_trans (connectedIn_append_left _ h₁) (connectedIn_symm hij))
        (connectedIn_append_left _ h₂)

/-- The invariant maintained by the relabelling loop: each in-range entry
is the least element of its connected component (it is connected to its
owner and bounds every element of the component from below). -/
def IsCompMin (P : List (ℕ × ℕ)) (cl : List ℕ) : Prop :=
  ∀ k, k < cl.length →
    connectedIn P k (cl.getD k 0) ∧ ∀ x, connectedIn P k x → cl.getD k 0 ≤ x

lemma label_eq_of_connected {P : List (ℕ × ℕ)} {cl : List ℕ}
    (h : IsCompMin P cl) {a b : ℕ} (ha : a < cl.length) (hb : b < cl.length)
    (hab : connectedIn P a b) : cl.getD a 0 = cl.getD b 0 := by
  have h₁ := h a ha
  have h₂ := h b hb
  have hle₁ : cl.getD a 0 ≤ cl.getD b 0 :=
    h₁.2 _ (connectedIn_trans hab h₂.1)
  have hle₂ : cl.getD b 0 ≤ cl.getD a 0 :=
    h₂.2 _ (connectedIn_trans (connectedIn_symm hab) h₁.1)
  exact le_antisymm hle₁ hle₂

lemma connected_of_label_eq {P : List (ℕ × ℕ)} {cl : List ℕ}
    (h : IsCompMin P cl) {a b : ℕ} (ha : a < cl.length) (hb : b < cl.length)
    (hab : cl.getD a 0 = cl.getD b 0) : connectedIn P a b := by
  have h₁ := (h a ha).1
  have h₂ := (h b hb).1
  rw [hab] at h₁
  exact connectedIn_trans h₁ (connectedIn_symm h₂)

lemma getD_map_of_lt (f : ℕ → ℕ) (l : List ℕ) {k : ℕ} (hk : k < l.length) :
    (l.map f).getD k 0 = f (l.getD k 0) := by
  rw [List.getD_eq_getElem?_getD, List.getD_eq_getElem?_getD,
    List.getElem?_map, List.getElem?_eq_getElem hk]
  rfl

/-- Core step lemma: relabelling every occurrence of the larger label
`cl[v]` to the smaller label `cl[u]` (where `{u, v} = {i, j}`) restores the
component-minimum invariant for the pair list extended by `(i, j)`. -/
lemma relabel_isCompMin {P : List (ℕ × ℕ)} {cl : List ℕ} {i j u v : ℕ}
    (hu : u < cl.length) (hv : v < cl.length)
    (huv : (u = i ∧ v = j) ∨ (u = j ∧ v = i))
    (hle : cl.getD u 0 ≤ cl.getD v 0)
    (h : IsCompMin P cl) :
    IsCompMin (P ++ [(i, j)])
      (cl.map (fun x => if x = cl.getD v 0 then cl.getD u 0 else x)) := by
  have hi : i < cl.length := by rcases huv with ⟨h₁, h₂⟩ | ⟨h₁, h₂⟩ <;> omega
  have hj : j < cl.length := by rcases huv with ⟨h₁, h₂⟩ | ⟨h₁, h₂⟩ <;> omega
  -- both original labels of the endpoints bound the new low label from above
  have hui : cl.getD u 0 ≤ cl.getD i 0 := by
    rcases huv with ⟨h₁, _⟩ | ⟨_, h₂⟩
    · subst h₁; exact le_refl _
    · subst h₂; exact hle
  have huj : cl.getD u 0 ≤ cl.getD j 0 := by
    rcases huv with ⟨_, h₂⟩ | ⟨h₁, _⟩
    · subst h₂; exact hle
    · subst h₁; exact le_refl _
  -- the appended pair connects u and v in the extended graph
  have huv' : connectedIn (P ++ [(i, j)]) u v := by
    have hmem : (i, j) ∈ P ++ [(i, j)] := List.mem_append_right P (by simp)
    rcases huv with ⟨h₁, h₂⟩ | ⟨h₁, h₂⟩
    · subst h₁; subst h₂; exact Relation.ReflTransGen.single (Or.inl hmem)
    · subst h₁; subst h₂; exact Relation.ReflTransGen.single (Or.inr hmem)
  intro k hk
  rw [List.length_map] at hk
  rw [getD_map_of_lt _ _ hk]
  by_cases hkv : cl.getD k 0 = cl.getD v 0
  · -- k lies in v's old component: its label becomes the low label cl[u]
    simp only [hkv, if_pos rfl]
    constructor
    · -- k ~ v ~ u ~ cl[u] in the extended graph
      have hkv' : connectedIn P k v := connected_of_label_eq h hk hv hkv
      have hu' : connectedIn P u (cl.getD u 0) := (h u hu).1
      exact connectedIn_trans (connectedIn_append_left _ hkv')
        (connectedIn_trans (connectedIn_symm huv') (connectedIn_append_left _ hu'))
    · intro x hx
      rcases connectedIn_append_single.mp hx with h₁ | ⟨h₁, h₂⟩ | ⟨h₁, h₂⟩
      · -- x in k's old component: old min cl[k] = cl[v] ≥ cl[u]
        exact le_trans (le_trans hle (le_of_eq hkv.symm)) ((h k hk).2 _ h₁)
      · exact le_trans huj ((h j hj).2 _ h₂)
      · exact le_trans hui ((h i hi).2 _ h₂)
  · -- k keeps its label, and its component is unchanged
    simp only [if_neg hkv]
    constructor
    · exact connectedIn_append_left _ (h k hk).1
    · intro x hx
      rcases connectedIn_append_single.mp hx with h₁ | ⟨h₁, h₂⟩ | ⟨h₁, h₂⟩
      · exact (h k hk).2 _ h₁
      · -- k old-connected to i
        have hki : cl.getD k 0 = cl.getD i 0 := label_eq_of_connected h hk hi h₁
        rcases huv with ⟨hu₁, hv₁⟩ | ⟨hu₁, hv₁⟩
        · -- u = i, v = j: cl[k] = cl[u] ≤ cl[j] ≤ x
          have hstep : cl.getD k 0 ≤ cl.getD j 0 := by
            rw [hki, ← hu₁]; exact huj
          exact le_trans hstep ((h j hj).2 _ h₂)
        · -- u = j, v = i: cl[k] = cl[i] = cl[v], contradiction
          rw [hv₁] at hkv
          exact absurd hki hkv
      · have hkj : cl.getD k 0 = cl.getD j 0 := label_eq_of_connected h hk hj h₁
        rcases huv with ⟨hu₁, hv₁⟩ | ⟨hu₁, hv₁⟩
        · rw [hv₁] at hkv
          exact absurd hkj hkv
        · have hstep : cl.getD k 0 ≤ cl.getD i 0 := by
            rw [hkj, ← hu₁]; exact hui
          exact le_trans hstep ((h i hi).2 _ h₂)

lemma clusterStep_length (cl : List ℕ) (p : ℕ × ℕ) :
    (clusterStep cl p).length = cl.length := by
  unfold clusterStep
  dsimp only
  split <;> rw [List.length_map]

lemma clusterStep_isCompMin {P : List (ℕ × ℕ)} {cl : List ℕ} {p : ℕ × ℕ}
    (hp1 : p.1 < cl.length) (hp2 : p.2 < cl.length)
    (h : IsCompMin P cl) :
    IsCompMin (P ++ [p]) (clusterStep cl p) := by
  obtain ⟨i, j⟩ := p
  unfold clusterStep
  by_cases hlt : cl.getD i 0 < cl.getD j 0
  · simp only [if_pos hlt]
    exact relabel_isCompMin hp1 hp2 (Or.inl ⟨rfl, rfl⟩) (le_of_lt hlt) h
  · simp only [if_neg hlt]
    exact relabel_isCompMin hp2 hp1 (Or.inr ⟨rfl, rfl⟩) (le_of_not_lt hlt) h

lemma foldl_isCompMin : ∀ (Q P : List (ℕ × ℕ)) (cl : List ℕ),
    (∀ q ∈ Q, q.1 < cl.length ∧ q.2 < cl.length) → IsCompMin P cl →
    IsCompMin (P ++ Q) (Q.foldl clusterStep cl) ∧
      (Q.foldl clusterStep cl).length = cl.length
  | [], P, cl, _, h => by simpa using h
  | q :: Q, P, cl, hq, h => by
    have hq1 := (hq q (by simp)).1
    have hq2 := (hq q (by simp)).2
    have hstep : IsCompMin (P ++ [q]) (clusterStep cl q) :=
      clusterStep_isCompMin hq1 hq2 h
    have hlen := clusterStep_length cl q
    have hrest : ∀ r ∈ Q, r.1 < (clusterStep cl q).length ∧
        r.2 < (clusterStep cl q).length := by
      intro r hr
      rw [hlen]
      exact hq r (by simp [hr])
    have ih := foldl_isCompMin Q (P ++ [q]) (clusterStep cl q) hrest hstep
    constructor
    · rw [List.foldl_cons]
      have heq : P ++ [q] ++ Q = P ++ q :: Q := by simp
      rw [heq] at ih
      exact ih.1
    · rw [List.foldl_cons, ih.2, hlen]

lemma getD_range {n k : ℕ} (hk : k < n) : (List.range n).getD k 0 = k := by
  rw [List.getD_eq_getElem?_getD, List.getElem?_eq_getElem (by simpa using hk)]
  simp

lemma isCompMin_nil_range (n : ℕ) : IsCompMin [] (List.range n) := by
  intro k hk
  rw [List.length_range] at hk
  rw [getD_range hk]
  exact ⟨connectedIn_refl, fun x hx => le_of_eq (connectedIn_nil hx)⟩

/-- The output of `_cluster` satisfies the component-minimum invariant. -/
lemma cluster_isCompMin {n : ℕ} {pairs : List (ℕ × ℕ)}
    (hp : ∀ p ∈ pairs, p.1 < n ∧ p.2 < n) :
    IsCompMin pairs (cluster n pairs) ∧ (cluster n pairs).length = n := by
  have := foldl_isCompMin pairs [] (List.range n)
    (by simpa [List.length_range] using hp) (isCompMin_nil_range n)
  simpa [cluster, List.length_range] using this

/-- C8: For every item count n and every pair list over [0, n), each entry
of the Cluster Assigner's output equals the minimum item index of that
item's connected component: the output entry is connected to its item and
is a lower bound on everything connected to it. -/
theorem C8_cluster_entry_is_component_min (n : ℕ) (pairs : List (ℕ × ℕ))
    (hp : ∀ p ∈ pairs, p.1 < n ∧ p.2 < n) (k : ℕ) (hk : k < n) :
    connectedIn pairs k ((cluster n pairs).getD k 0) ∧
      ∀ x, connectedIn pairs k x → (cluster n pairs).getD k 0 ≤ x := by
  obtain ⟨hinv, hlen⟩ := cluster_isCompMin hp
  exact hinv k (by rw [hlen]; exact hk)

theorem C8_witness :
    connectedIn [(0, 2)] 2 ((cluster 3 [(0, 2)]).getD 2 0) ∧
      ∀ x, connectedIn [(0, 2)] 2 x → (cluster 3 [(0, 2)]).getD 2 0 ≤ x :=
  C8_cluster_entry_is_component_min 3 [(0, 2)] (by decide) 2 (by decide)

/-- C3: the Cluster Assigner returns a length-n array of cluster ids in
which any two items connected by a chain of given pairs carry the same id,
any item not connected (directly or transitively) to a pair keeps the id
equal to its own index, and with an empty pair list every item k keeps
id k (n singleton clusters). -/
theorem C3_cluster_assignment_spec (n : ℕ) (pairs : List (ℕ × ℕ))
    (hp : ∀ p ∈ pairs, p.1 < n ∧ p.2 < n) :
    (cluster n pairs).length = n ∧
    (∀ k l, k < n → l < n → connectedIn pairs k l →
      (cluster n pairs).getD k 0 = (cluster n pairs).getD l 0) ∧
    (∀ k, k < n → (∀ x, connectedIn pairs k x → x = k) →
      (cluster n pairs).getD k 0 = k) ∧
    (cluster n [] = List.range n ∧ ∀ k, k < n → (cluster n []).getD k 0 = k) := by
  obtain ⟨hinv, hlen⟩ := cluster_isCompMin hp
  refine ⟨hlen, ?_, ?_, rfl, ?_⟩
  · intro k l hk hl hconn
    exact label_eq_of_connected hinv (by omega) (by omega) hconn
  · intro k hk hiso
    exact hiso _ (hinv k (by omega)).1
  · intro k hk
    exact getD_range hk

theorem C3_witness :
    (cluster 3 [(2, 1)]).length = 3 ∧
    (∀ k l, k < 3 → l < 3 → connectedIn [(2, 1)] k l →
      (cluster 3 [(2, 1)]).getD k 0 = (cluster 3 [(2, 1)]).getD l 0) ∧
    (∀ k, k < 3 → (∀ x, connectedIn [(2, 1)] k x → x = k) →
      (cluster 3 [(2, 1)]).getD k 0 = k) ∧
    (cluster 3 [] = List.range 3 ∧ ∀ k, k < 3 → (cluster 3 []).getD k 0 = k) :=
  C3_cluster_assignment_spec 3 [(2, 1)] (by decide)

/-- C4: the partition induced by the Cluster Assigner's output is invariant
under any permutation of the pair list: two in-range items share a
cluster-id under P exactly when they share one under a permutation of P. -/
theorem C4_cluster_partition_perm_invariant (n : ℕ) (P Q : List (ℕ × ℕ))
    (hperm : P.Perm Q) (hp : ∀ p ∈ P, p.1 < n ∧ p.2 < n)
    (k l : ℕ) (hk : k < n) (hl : l < n) :
    ((cluster n P).getD k 0 = (cluster n P).getD l 0) ↔
      ((cluster n Q).getD k 0 = (cluster n Q).getD l 0) := by
  have hq : ∀ p ∈ Q, p.1 < n ∧ p.2 < n := fun p hpq =>
    hp p (hperm.mem_iff.mpr hpq)
  obtain ⟨hinvP, hlenP⟩ := cluster_isCompMin hp
  obtain ⟨hinvQ, hlenQ⟩ := cluster_isCompMin hq
  have hconn : ∀ a b : ℕ, connectedIn P a b ↔ connectedIn Q a b := by
    intro a b
    constructor
    · exact connectedIn_mono (fun p hmem => hperm.mem_iff.mp hmem)
    · exact connectedIn_mono (fun p hmem => hperm.mem_iff.mpr hmem)
  constructor
  · intro heq
    exact label_eq_of_connected hinvQ (by omega) (by omega)
      ((hconn k l).mp (connected_of_label_eq hinvP (by omega) (by omega) heq))
  · intro heq
    exact label_eq_of_connected hinvP (by omega) (by omega)
      ((hconn k l).mpr (connected_of_label_eq hinvQ (by omega) (by omega) heq))

theorem C4_witness :
    ((cluster 3 [(0, 1), (1, 2)]).getD 0 0 = (cluster 3 [(0, 1), (1, 2)]).getD 2 0) ↔
      ((cluster 3 [(1, 2), (0, 1)]).getD 0 0 = (cluster 3 [(1, 2), (0, 1)]).getD 2 0) :=
  C4_cluster_partition_perm_invariant 3 [(0, 1), (1, 2)] [(1, 2), (0, 1)]
    (by decide) (by decide) 0 2 (by decide) (by decide)

/-! ### Pairwise similarity engine

The fingerprint matrix and metric are abstracted as a distance function
`d : ℕ → ℕ → ℚ` on row indices (`d i j` is `metric(fps[i], fps[j])`);
similarity is `1 - d i j`.  The dense mode mirrors
`_pairs_from_fps_mem_intensive` + `_pairs_from_sim_mat`; the blocked mode
mirrors `slice_generator` + `_above_minimum` summed over the block pairs. -/

/-- Model of `squareform(pdist(fps, metric))`: a full square distance matrix with a
zero diagonal. -/
def squareformDist (d : ℕ → ℕ → ℚ) (i j : ℕ) : ℚ :=
  if i = j then 0 else d i j

/-- The dense similarity matrix after `sim_mat[sim_mat <= threshold] = 0`. -/
def simMatThresholded (d : ℕ → ℕ → ℚ) (thr : ℚ) (i j : ℕ) : ℚ :=
  let s := 1 - squareformDist d i j
  if s ≤ thr then 0 else s

/-- Model of `_pairs_from_sim_mat` (before the `returns_pairs` sort): the nonzero
entries of the strict upper triangle `triu(sim_mat, k=1)` as
`(i, j, sim)` triples. -/
def pairsFromSimMat (n : ℕ) (m : ℕ → ℕ → ℚ) : List (ℕ × ℕ × ℚ) :=
  (List.range n).flatMap (fun i =>
    (List.range n).filterMap (fun j =>
      if i < j ∧ m i j ≠ 0 then some (i, j, m i j) else none))

/-- Model of `_pairs_from_fps_mem_intensive` (before the sort): threshold the dense
similarity matrix, then extract the strict upper triangle. -/
def pairsFromFpsMemIntensive (n : ℕ) (d : ℕ → ℕ → ℚ) (thr : ℚ) :
    List (ℕ × ℕ × ℚ) :=
  pairsFromSimMat n (simMatThresholded d thr)

/-- The inner `slice_generator(low, high, width, end=True)`: contiguous
blocks `(low, min(low + width, high))` tiling `[low, high)`.  The source
loop needs `0 < w` to terminate; the guard makes the Lean function total
and every theorem assumes a positive width. -/
def sliceGen1 (low high w : ℕ) : List (ℕ × ℕ) :=
  if _h : low < high ∧ 0 < w then
    (low, if low + w < high then low + w else high) :: sliceGen1 (low + w) high w
  else []
termination_by high - low
decreasing_by omega

/-- The outer `slice_generator(low, high, width)`: checkerboard indices of
the upper triangle — each block paired with every block from its own
position onward. -/
def sliceGenPairs (low high w : ℕ) : List ((ℕ × ℕ) × (ℕ × ℕ)) :=
  if _h : low < high ∧ 0 < w then
    ((sliceGen1 low high w).map
      (fun blkJ => ((low, if low + w < high then low + w else high), blkJ))) ++
      sliceGenPairs (low + w) high w
  else []
termination_by high - low
decreasing_by omega

/-- Model of `_above_minimum`: the cross similarity submatrix of one block pair via
`cdist`, with the diagonal block restricted to its strict upper triangle
(`np.triu(sim_mat, k=1)`), thresholded, and returned as the nonzero
entries of the sparse matrix. -/
def aboveMinimum (d : ℕ → ℕ → ℚ) (thr : ℚ) (blk : (ℕ × ℕ) × (ℕ × ℕ)) :
    List (ℕ × ℕ × ℚ) :=
  (List.range' blk.1.1 (blk.1.2 - blk.1.1)).flatMap (fun i =>
    (List.range' blk.2.1 (blk.2.2 - blk.2.1)).filterMap (fun j =>
      let s0 := 1 - d i j
      let s1 := if blk.1 = blk.2 ∧ ¬i < j then 0 else s0
      let s2 := if s1 ≤ thr then 0 else s1
      if s2 ≠ 0 then some (i, j, s2) else none))

/-- Model of `_pairs_from_fps_mem_opt` (single-process path, before the sort):
concatenate the per-block-pair results in generator order; the
multiprocessed path returns the same list. -/
def pairsFromFpsMemOpt (n w : ℕ) (d : ℕ → ℕ → ℚ) (thr : ℚ) :
    List (ℕ × ℕ × ℚ) :=
  (sliceGenPairs 0 n w).flatMap (aboveMinimum d thr)

/-- The comparison used by `returns_pairs`'s `sort_values('sim')`. -/
def simLE (p q : ℕ × ℕ × ℚ) : Prop := p.2.2 ≤ q.2.2

instance : DecidableRel simLE := fun p q =>
  inferInstanceAs (Decidable (p.2.2 ≤ q.2.2))

instance : IsTotal (ℕ × ℕ × ℚ) simLE := ⟨fun p q => le_total p.2.2 q.2.2⟩

instance : IsTrans (ℕ × ℕ × ℚ) simLE :=
  ⟨fun _ _ _ hab hbc => le_trans hab hbc⟩

/-- Model of `returns_pairs`: sort the pair records ascending by similarity
(pandas `sort_values` is a stable sort). -/
def returnsPairs (l : List (ℕ × ℕ × ℚ)) : List (ℕ × ℕ × ℚ) :=
  l.insertionSort simLE

/-- Model of `_pairs_from_fps`: dispatch on `memory_optimized`, then sort. -/
def pairsFromFps (memOpt : Bool) (w n : ℕ) (d : ℕ → ℕ → ℚ) (thr : ℚ) :
    List (ℕ × ℕ × ℚ) :=
  returnsPairs
    (if memOpt then pairsFromFpsMemOpt n w d thr
     else pairsFromFpsMemIntensive n d thr)

lemma sliceGen1_shape {w : ℕ} {B : ℕ × ℕ} :
    ∀ {low high : ℕ}, B ∈ sliceGen1 low high w →
      low ≤ B.1 ∧ B.1 < high ∧
        B.2 = (if B.1 + w < high then B.1 + w else high) := by
  intro low high
  induction low, high, w using sliceGen1.induct with
  | case1 low high w h ih =>
    intro hB
    rw [sliceGen1, dif_pos h] at hB
    rcases List.mem_cons.mp hB with heq | hmem
    · subst heq; exact ⟨le_refl _, h.1, rfl⟩
    · obtain ⟨h₁, h₂, h₃⟩ := ih hmem
      exact ⟨by omega, h₂, h₃⟩
  | case2 low high w h =>
    intro hB
    rw [sliceGen1, dif_neg h] at hB
    simp at hB

lemma sliceGen1_bounds {low high w : ℕ} {B : ℕ × ℕ}
    (hB : B ∈ sliceGen1 low high w) (hw : 0 < w) :
    low ≤ B.1 ∧ B.1 < B.2 ∧ B.2 ≤ high ∧ B.2 ≤ B.1 + w := by
  obtain ⟨h₁, h₂, h₃⟩ := sliceGen1_shape hB
  by_cases hc : B.1 + w < high <;> simp [hc] at h₃ <;> omega

/-- Every index in `[low, high)` is covered by some block of the inner
generator. -/
lemma sliceGen1_cover {w : ℕ} :
    ∀ {low high : ℕ} (i : ℕ), 0 < w → low ≤ i → i < high →
      ∃ B, B ∈ sliceGen1 low high w ∧ B.1 ≤ i ∧ i < B.2 := by
  intro low high
  induction low, high, w using sliceGen1.induct with
  | case1 low high w h ih =>
    intro i hw hlo hhi
    rw [sliceGen1, dif_pos h]
    by_cases hc : i < low + w
    · refine ⟨(low, if low + w < high then low + w else high), by simp, hlo, ?_⟩
      by_cases hd : low + w < high <;> simp [hd] <;> omega
    · obtain ⟨B, hB, h₁, h₂⟩ := ih i hw (by omega) hhi
      exact ⟨B, List.mem_cons_of_mem _ hB, h₁, h₂⟩
  | case2 low high w h =>
    intro i hw hlo hhi
    omega

lemma sliceGenPairs_shape {w : ℕ} {B C : ℕ × ℕ} :
    ∀ {low high : ℕ}, (B, C) ∈ sliceGenPairs low high w →
      B ∈ sliceGen1 low high w ∧ C ∈ sliceGen1 B.1 high w := by
  intro low high
  induction low, high, w using sliceGenPairs.induct with
  | case1 low high w h ih =>
    intro hBC
    rw [sliceGenPairs, dif_pos h] at hBC
    rcases List.mem_append.mp hBC with hmem | hmem
    · obtain ⟨blkJ, hblkJ, heq⟩ := List.mem_map.mp hmem
      have hB : B = (low, if low + w < high then low + w else high) :=
        ((Prod.mk.injEq _ _ _ _).mp heq).1.symm
      have hC : C = blkJ := ((Prod.mk.injEq _ _ _ _).mp heq).2.symm
      constructor
      · rw [sliceGen1, dif_pos h, hB]
        exact List.mem_cons_self _ _
      · rw [hC, hB]
        exact hblkJ
    · obtain ⟨h₁, h₂⟩ := ih hmem
      constructor
      · rw [sliceGen1, dif_pos h]
        exact List.mem_cons_of_mem _ h₁
      · exact h₂
  | case2 low high w h =>
    intro hBC
    rw [sliceGenPairs, dif_neg h] at hBC
    simp at hBC

/-- Block pairs tile the upper triangle: the column block is the row block
itself or lies entirely to its right. -/
lemma sliceGenPairs_order {low high w : ℕ} {B C : ℕ × ℕ} (hw : 0 < w)
    (hBC : (B, C) ∈ sliceGenPairs low high w) : B = C ∨ B.2 ≤ C.1 := by
  obtain ⟨hB, hC⟩ := sliceGenPairs_shape hBC
  obtain ⟨hB₁, hB₂, hB₃, hB₄⟩ := sliceGen1_bounds hB hw
  have hcond : B.1 < high ∧ 0 < w := ⟨by omega, hw⟩
  rw [sliceGen1, dif_pos hcond] at hC
  rcases List.mem_cons.mp hC with heq | hmem
  · left
    obtain ⟨_, _, hsB₃⟩ := sliceGen1_shape hB
    rw [heq, ← hsB₃]
  · right
    obtain ⟨h₁, _, _⟩ := sliceGen1_shape hmem
    omega

/-- Every upper-triangle cell `(i, j)` with `i ≤ j` is covered by some
block pair of the generator. -/
lemma sliceGenPairs_cover {w : ℕ} :
    ∀ {low high : ℕ} (i j : ℕ), 0 < w → low ≤ i → i ≤ j → j < high →
      ∃ B C, (B, C) ∈ sliceGenPairs low high w ∧
        B.1 ≤ i ∧ i < B.2 ∧ C.1 ≤ j ∧ j < C.2 := by
  intro low high
  induction low, high, w using sliceGenPairs.induct with
  | case1 low high w h ih =>
    intro i j hw hlo hij hhi
    rw [sliceGenPairs, dif_pos h]
    by_cases hc : i < low + w
    · obtain ⟨C, hC, hC₁, hC₂⟩ := @sliceGen1_cover w low high j hw (by omega) hhi
      have hiB : i < (if low + w < high then low + w else high) := by
        by_cases hd : low + w < high
        · rw [if_pos hd]; omega
        · rw [if_neg hd]; omega
      exact ⟨(low, if low + w < high then low + w else high), C,
        List.mem_append_left _ (List.mem_map_of_mem _ hC), hlo, hiB, hC₁, hC₂⟩
    · obtain ⟨B, C, hBC, h₁, h₂, h₃, h₄⟩ := ih i j hw (by omega) hij hhi
      exact ⟨B, C, List.mem_append_right _ hBC, h₁, h₂, h₃, h₄⟩
  | case2 low high w h =>
    intro i j hw hlo hij hhi
    omega

/-- Membership in one block-pair's `_above_minimum` output, characterized:
an in-block cell, not killed by the diagonal-block triangle mask, whose
similarity survives the floor threshold and is stored as a nonzero. -/
lemma mem_aboveMinimum {d : ℕ → ℕ → ℚ} {thr : ℚ} {blk : (ℕ × ℕ) × (ℕ × ℕ)}
    {x : ℕ × ℕ × ℚ} (h1 : blk.1.1 ≤ blk.1.2) (h2 : blk.2.1 ≤ blk.2.2) :
    x ∈ aboveMinimum d thr blk ↔
      ∃ i j, (blk.1.1 ≤ i ∧ i < blk.1.2) ∧ (blk.2.1 ≤ j ∧ j < blk.2.2) ∧
        ¬(blk.1 = blk.2 ∧ ¬i < j) ∧ thr < 1 - d i j ∧ (1 : ℚ) - d i j ≠ 0 ∧
        x = (i, j, 1 - d i j) := by
  unfold aboveMinimum
  rw [List.mem_flatMap]
  constructor
  · rintro ⟨i, hi, hx⟩
    rw [List.mem_filterMap] at hx
    obtain ⟨j, hj, hemit⟩ := hx
    rw [List.mem_range'_1] at hi hj
    dsimp only at hemit
    by_cases hmask : blk.1 = blk.2 ∧ ¬i < j
    · rw [if_pos hmask] at hemit
      have hz0 : (if (0 : ℚ) ≤ thr then (0 : ℚ) else 0) = 0 := by split <;> rfl
      rw [hz0] at hemit
      simp at hemit
    · rw [if_neg hmask] at hemit
      by_cases hthr : 1 - d i j ≤ thr
      · rw [if_pos hthr] at hemit
        simp at hemit
      · rw [if_neg hthr] at hemit
        by_cases hz : (1 : ℚ) - d i j ≠ 0
        · rw [if_pos hz] at hemit
          refine ⟨i, j, ⟨hi.1, by omega⟩, ⟨hj.1, by omega⟩, hmask,
            lt_of_not_le hthr, hz, (Option.some.injEq _ _ ▸ hemit).symm⟩
        · rw [if_neg hz] at hemit
          simp at hemit
  · rintro ⟨i, j, hi, hj, hmask, hthr, hz, hx⟩
    refine ⟨i, ?_, ?_⟩
    · rw [List.mem_range'_1]; omega
    · rw [List.mem_filterMap]
      refine ⟨j, by rw [List.mem_range'_1]; omega, ?_⟩
      dsimp only
      rw [if_neg hmask, if_neg (not_le_of_lt hthr), if_pos hz, hx]

/-- Membership in the dense-mode (memory intensive) raw pair list,
characterized: a strict-upper-triangle cell whose similarity survives the
floor threshold and is a stored nonzero. -/
lemma mem_pairsFromFpsMemIntensive {n : ℕ} {d : ℕ → ℕ → ℚ} {thr : ℚ}
    {x : ℕ × ℕ × ℚ} :
    x ∈ pairsFromFpsMemIntensive n d thr ↔
      ∃ i j, i < j ∧ j < n ∧ thr < 1 - d i j ∧ (1 : ℚ) - d i j ≠ 0 ∧
        x = (i, j, 1 - d i j) := by
  unfold pairsFromFpsMemIntensive pairsFromSimMat
  rw [List.mem_flatMap]
  constructor
  · rintro ⟨i, hi, hx⟩
    rw [List.mem_filterMap] at hx
    obtain ⟨j, hj, hemit⟩ := hx
    rw [List.mem_range] at hi hj
    by_cases hcond : i < j ∧ simMatThresholded d thr i j ≠ 0
    · rw [if_pos hcond] at hemit
      obtain ⟨hij, hnz⟩ := hcond
      have hsq : squareformDist d i j = d i j := if_neg (by omega)
      unfold simMatThresholded at hnz hemit
      rw [hsq] at hnz hemit
      dsimp only at hnz hemit
      by_cases hthr : 1 - d i j ≤ thr
      · rw [if_pos hthr] at hnz
        exact absurd rfl hnz
      · rw [if_neg hthr] at hnz hemit
        exact ⟨i, j, hij, hj, lt_of_not_le hthr, hnz,
          (Option.some.injEq _ _ ▸ hemit).symm⟩
    · rw [if_neg hcond] at hemit
      simp at hemit
  · rintro ⟨i, j, hij, hj, hthr, hnz, hx⟩
    have hsq : squareformDist d i j = d i j := if_neg (by omega)
    have hm : simMatThresholded d thr i j = 1 - d i j := by
      unfold simMatThresholded
      rw [hsq]
      exact if_neg (not_le_of_lt hthr)
    refine ⟨i, by rw [List.mem_range]; omega, ?_⟩
    rw [List.mem_filterMap]
    refine ⟨j, by rw [List.mem_range]; omega, ?_⟩
    rw [if_pos ⟨hij, by rw [hm]; exact hnz⟩, hm, hx]

/-- Membership in the blocked-mode raw pair list coincides with the dense
characterization, for any positive block width. -/
lemma mem_pairsFromFpsMemOpt {n w : ℕ} {d : ℕ → ℕ → ℚ} {thr : ℚ}
    {x : ℕ × ℕ × ℚ} (hw : 0 < w) :
    x ∈ pairsFromFpsMemOpt n w d thr ↔
      ∃ i j, i < j ∧ j < n ∧ thr < 1 - d i j ∧ (1 : ℚ) - d i j ≠ 0 ∧
        x = (i, j, 1 - d i j) := by
  unfold pairsFromFpsMemOpt
  rw [List.mem_flatMap]
  constructor
  · rintro ⟨⟨B, C⟩, hBC, hx⟩
    obtain ⟨hB, hC⟩ := sliceGenPairs_shape hBC
    obtain ⟨hB₁, hB₂, hB₃, _⟩ := sliceGen1_bounds hB hw
    obtain ⟨hC₁, hC₂, hC₃, _⟩ := sliceGen1_bounds hC hw
    rw [mem_aboveMinimum (by dsimp only; omega) (by dsimp only; omega)] at hx
    obtain ⟨i, j, hi, hj, hmask, hthr, hnz, hxeq⟩ := hx
    dsimp only at hi hj hmask
    have hij : i < j := by
      rcases sliceGenPairs_order hw hBC with heq | hle
      · rw [heq] at hmask
        by_cases hc : i < j
        · exact hc
        · exact absurd ⟨rfl, hc⟩ hmask
      · omega
    exact ⟨i, j, hij, by omega, hthr, hnz, hxeq⟩
  · rintro ⟨i, j, hij, hj, hthr, hnz, hx⟩
    obtain ⟨B, C, hBC, h₁, h₂, h₃, h₄⟩ :=
      @sliceGenPairs_cover w 0 n i j hw (by omega) (by omega) hj
    refine ⟨(B, C), hBC, ?_⟩
    rw [mem_aboveMinimum (by dsimp only; omega) (by dsimp only; omega)]
    exact ⟨i, j, ⟨h₁, h₂⟩, ⟨h₃, h₄⟩, fun hc => hc.2 hij, hthr, hnz, hx⟩

/-- With a single block covering everything (`w = n`), the block generator
yields exactly one block pair, the full square against itself. -/
lemma sliceGenPairs_full {n : ℕ} (hn : 0 < n) :
    sliceGenPairs 0 n n = [((0, n), (0, n))] := by
  have hcond : 0 < n ∧ 0 < n := ⟨hn, hn⟩
  have hgen1 : sliceGen1 0 n n = [(0, n)] := by
    rw [sliceGen1, dif_pos hcond]
    have hif : ¬0 + n < n := by omega
    rw [if_neg hif]
    have hstop : sliceGen1 (0 + n) n n = [] := by
      rw [sliceGen1, dif_neg (by omega)]
    rw [hstop]
  rw [sliceGenPairs, dif_pos hcond]
  have hif : ¬0 + n < n := by omega
  rw [if_neg hif, hgen1]
  have hstop : sliceGenPairs (0 + n) n n = [] := by
    rw [sliceGenPairs, dif_neg (by omega)]
  rw [hstop]
  simp

/-- C2: blocked-mode and dense-mode pair computation produce the same set
of (i, j, sim) triples for any positive block width `w ≤ n`, and a single
block with `w = n` produces literally the same list as dense mode. -/
theorem C2_blocked_equals_dense (n w : ℕ) (d : ℕ → ℕ → ℚ) (thr : ℚ)
    (hw : 0 < w) (hwn : w ≤ n) :
    (∀ x, x ∈ pairsFromFpsMemOpt n w d thr ↔
        x ∈ pairsFromFpsMemIntensive n d thr) ∧
      (w = n → pairsFromFpsMemOpt n w d thr = pairsFromFpsMemIntensive n d thr) := by
  constructor
  · intro x
    rw [mem_pairsFromFpsMemOpt hw, mem_pairsFromFpsMemIntensive]
  · intro heq
    subst heq
    have hn : 0 < w := hw
    unfold pairsFromFpsMemOpt pairsFromFpsMemIntensive pairsFromSimMat
    rw [sliceGenPairs_full hn]
    have hflat : ([((0, w), (0, w))] : List ((ℕ × ℕ) × (ℕ × ℕ))).flatMap
        (aboveMinimum d thr) = aboveMinimum d thr ((0, w), (0, w)) := by
      simp [List.flatMap]
    rw [hflat]
    unfold aboveMinimum
    dsimp only
    rw [Nat.sub_zero, ← List.range_eq_range']
    apply List.flatMap_congr
    intro i _
    apply List.filterMap_congr
    intro j _
    by_cases hij : i < j
    · have hmask : ¬((0, w) = ((0 : ℕ), w) ∧ ¬i < j) := fun hc => hc.2 hij
      rw [if_neg hmask]
      have hsq : squareformDist d i j = d i j := if_neg (by omega)
      unfold simMatThresholded
      rw [hsq]
      dsimp only
      by_cases hthr : 1 - d i j ≤ thr
      · rw [if_pos hthr]
        have hz : ¬((0 : ℚ) ≠ 0) := by simp
        rw [if_neg hz, if_neg (by simp [hij] : ¬(i < j ∧ ¬(0 : ℚ) = 0))]
      · rw [if_neg hthr]
        by_cases hz : (1 : ℚ) - d i j ≠ 0
        · rw [if_pos hz, if_pos ⟨hij, hz⟩]
        · rw [if_neg hz]
          rw [if_neg (fun hc => hz hc.2)]
    · have hmask : (0, w) = ((0 : ℕ), w) ∧ ¬i < j := ⟨rfl, hij⟩
      rw [if_pos hmask]
      have hz0 : (if (0 : ℚ) ≤ thr then (0 : ℚ) else 0) = 0 := by split <;> rfl
      rw [hz0]
      have hz : ¬((0 : ℚ) ≠ 0) := by simp
      rw [if_neg hz, if_neg (fun hc => hij hc.1)]

theorem C2_witness :
    (∀ x, x ∈ pairsFromFpsMemOpt 2 1 (fun _ _ => (1 : ℚ) / 2) 0 ↔
        x ∈ pairsFromFpsMemIntensive 2 (fun _ _ => (1 : ℚ) / 2) 0) ∧
      ((1 : ℕ) = 2 → pairsFromFpsMemOpt 2 1 (fun _ _ => (1 : ℚ) / 2) 0 =
        pairsFromFpsMemIntensive 2 (fun _ _ => (1 : ℚ) / 2) 0) :=
  C2_blocked_equals_dense 2 1 (fun _ _ => (1 : ℚ) / 2) 0 (by decide) (by decide)

/-- C6: every record of a store built by the engine from n fingerprints
with floor threshold `thr` has `i < j < n` and `sim` strictly above `thr`,
and the store is sorted ascending by `sim` — in both memory modes. -/
theorem C6_store_invariants (memOpt : Bool) (w n : ℕ) (d : ℕ → ℕ → ℚ)
    (thr : ℚ) (hw : 0 < w) :
    (∀ p ∈ pairsFromFps memOpt w n d thr,
        p.1 < p.2.1 ∧ p.2.1 < n ∧ thr < p.2.2) ∧
      List.Sorted simLE (pairsFromFps memOpt w n d thr) := by
  constructor
  · intro p hp
    unfold pairsFromFps returnsPairs at hp
    have hpmem := (List.perm_insertionSort simLE _).mem_iff.mp hp
    have hchar : ∃ i j, i < j ∧ j < n ∧ thr < 1 - d i j ∧
        (1 : ℚ) - d i j ≠ 0 ∧ p = (i, j, 1 - d i j) := by
      cases memOpt with
      | true => exact (mem_pairsFromFpsMemOpt hw).mp (by simpa using hpmem)
      | false => exact mem_pairsFromFpsMemIntensive.mp (by simpa using hpmem)
    obtain ⟨i, j, hij, hjn, hthr, _, hpeq⟩ := hchar
    rw [hpeq]
    exact ⟨hij, hjn, hthr⟩
  · exact List.sorted_insertionSort simLE _

theorem C6_witness :
    (∀ p ∈ pairsFromFps true 1 2 (fun _ _ => (1 : ℚ) / 4) 0,
        p.1 < p.2.1 ∧ p.2.1 < 2 ∧ (0 : ℚ) < p.2.2) ∧
      List.Sorted simLE (pairsFromFps true 1 2 (fun _ _ => (1 : ℚ) / 4) 0) :=
  C6_store_invariants true 1 2 (fun _ _ => (1 : ℚ) / 4) 0 (by decide)

/-! ### Fitted state, threshold optimizer and `fit`

Object attributes become a record; `None` attributes become `Option`.
The configuration attributes are set in `__init__`; the fitted attributes
start as `none`.  The SciPy `minimize_scalar(f, bounds=(min_threshold, 1),
method='bounded')` call is abstracted as a parameter
`minimizer : (ℚ → ℚ) → ℚ` returning the `.x` of the search: every theorem
below holds for an arbitrary minimizer, in particular for the real one. -/

structure SimState where
  blockWidth : ℕ
  minThreshold : ℚ
  largestCluster : ℚ
  memoryOptimized : Bool
  nInstances : Option ℕ
  index : Option (List ℕ)
  pairs : Option (List (ℕ × ℕ × ℚ))
  threshold : Option ℚ
  clusters : Option (List ℕ)
deriving DecidableEq

/-- Model of the filter `self.pairs_.loc[self.pairs_.sim > threshold]`: the rows of
the store with similarity strictly above the cutoff, projected to (i, j),
order preserved. -/
def filteredPairs (store : List (ℕ × ℕ × ℚ)) (t : ℚ) : List (ℕ × ℕ) :=
  (store.filter (fun p => t < p.2.2)).map (fun p => (p.1, p.2.1))

/-- Model of `pd.Series(...).value_counts().max()`: the size of the largest cluster
of a label assignment (0 for an empty assignment). -/
def maxClusterSize (l : List ℕ) : ℕ :=
  (l.map (fun c => l.count c)).foldr max 0

/-- The objective `f(threshold)` inside `_optimal_thresh`: cluster the
pairs above the probed threshold and measure how far the largest cluster
is from the target fraction.  It reads state but never writes it. -/
def thresholdObjective (st : SimState) (t : ℚ) : ℚ :=
  |(maxClusterSize (cluster (st.nInstances.getD 0)
      (filteredPairs (st.pairs.getD []) t)) : ℚ) -
    st.largestCluster * (st.nInstances.getD 0 : ℚ)|

/-- Model of `_optimal_thresh`: run the bounded scalar minimizer on the objective,
store its `.x` as `threshold_`, then re-filter the pair store at
`threshold_` and run `_cluster` afresh on the result to obtain the exposed
`clusters`. -/
def optimalThresh (minimizer : (ℚ → ℚ) → ℚ) (st : SimState) : SimState :=
  let x := minimizer (thresholdObjective st)
  let st1 := { st with threshold := some x }
  let gdPrs := filteredPairs (st1.pairs.getD []) x
  { st1 with clusters := some (cluster (st1.nInstances.getD 0) gdPrs) }

/-- The `n_instances_` property setter: `assert val >= self._block_width`
before the backing field is assigned; on failure the `AssertionError`
carries the (truncated) message and nothing is mutated. -/
def nInstancesSetter (st : SimState) (val : ℕ) : Except String SimState :=
  if st.blockWidth ≤ val then Except.ok { st with nInstances := some val }
  else Except.error "The block width should be less than "

/-- Model of `fit` on the fingerprint path (`fper is None`), for an input of `n`
rows with row distance function `d` and an optional precomputed pair list.
The returned pair is (object state after the call, raised error if any):
an exception leaves the object exactly as it was. -/
def fit (minimizer : (ℚ → ℚ) → ℚ) (st : SimState) (n : ℕ) (d : ℕ → ℕ → ℚ)
    (pairsArg : Option (List (ℕ × ℕ × ℚ))) : SimState × Option String :=
  match nInstancesSetter st n with
  | Except.error e => (st, some e)
  | Except.ok st1 =>
    let st2 := { st1 with pairs := pairsArg }
    let st3 := { st2 with index := some (List.range n) }
    let st4 :=
      if st3.pairs = none then
        { st3 with pairs := some (pairsFromFps st3.memoryOptimized
            st3.blockWidth n d st3.minThreshold) }
      else st3
    (optimalThresh minimizer st4, none)

/-- C5: after `_optimal_thresh`, the exposed cluster assignment is a fresh
`_cluster` run on the pair store filtered strictly above the returned
`threshold_` (the minimizer's `.x`), and it depends on the minimizer only
through that returned value — never on any internal probe of the search
(the objective is pure, so probes cannot leak state). -/
theorem C5_clusters_recomputed_at_returned_threshold
    (minimizer : (ℚ → ℚ) → ℚ) (st : SimState) :
    ((optimalThresh minimizer st).threshold =
        some (minimizer (thresholdObjective st))) ∧
    ((optimalThresh minimizer st).clusters =
        some (cluster ((optimalThresh minimizer st).nInstances.getD 0)
          (filteredPairs ((optimalThresh minimizer st).pairs.getD [])
            (((optimalThresh minimizer st).threshold).getD 0)))) ∧
    (∀ minimizer2 : (ℚ → ℚ) → ℚ,
      minimizer2 (thresholdObjective st) = minimizer (thresholdObjective st) →
      optimalThresh minimizer2 st = optimalThresh minimizer st) := by
  refine ⟨rfl, rfl, ?_⟩
  intro minimizer2 heq
  unfold optimalThresh
  rw [heq]

/-- C7: when the input's item count is smaller than the configured block
width, `fit` fails at the initial `n_instances_` assignment (the very
first statement): the assertion error is reported and neither the pair
computation nor the threshold optimization runs — the pair store,
threshold and clusters are left exactly as they were. -/
theorem C7_fit_fails_fast_on_small_input (minimizer : (ℚ → ℚ) → ℚ)
    (st : SimState) (n : ℕ) (d : ℕ → ℕ → ℚ)
    (pairsArg : Option (List (ℕ × ℕ × ℚ))) (hlt : n < st.blockWidth) :
    (fit minimizer st n d pairsArg).2 =
        some "The block width should be less than " ∧
      (fit minimizer st n d pairsArg).1.pairs = st.pairs ∧
      (fit minimizer st n d pairsArg).1.threshold = st.threshold ∧
      (fit minimizer st n d pairsArg).1.clusters = st.clusters := by
  have herr : nInstancesSetter st n =
      Except.error "The block width should be less than " := by
    unfold nInstancesSetter
    rw [if_neg (by omega)]
  unfold fit
  rw [herr]
  exact ⟨rfl, rfl, rfl, rfl⟩

/-- A concrete previously-fitted state used by the error-path witnesses. -/
def sampleFittedState : SimState :=
  { blockWidth := 2
    minThreshold := 9 / 20
    largestCluster := 1 / 10
    memoryOptimized := true
    nInstances := some 3
    index := some (List.range 3)
    pairs := some [(0, 1, 1 / 2)]
    threshold := some (1 / 2)
    clusters := some [0, 0, 2] }

theorem C7_witness :
    (fit (fun _ => 1 / 2) sampleFittedState 1 (fun _ _ => 1 / 2) none).2 =
        some "The block width should be less than " ∧
      (fit (fun _ => 1 / 2) sampleFittedState 1 (fun _ _ => 1 / 2) none).1.pairs =
        sampleFittedState.pairs ∧
      (fit (fun _ => 1 / 2) sampleFittedState 1 (fun _ _ => 1 / 2) none).1.threshold =
        sampleFittedState.threshold ∧
      (fit (fun _ => 1 / 2) sampleFittedState 1 (fun _ _ => 1 / 2) none).1.clusters =
        sampleFittedState.clusters :=
  C7_fit_fails_fast_on_small_input (fun _ => 1 / 2) sampleFittedState 1
    (fun _ _ => 1 / 2) none (by decide)

/-- C9: on the block-width configuration error the whole previously fitted
state survives unchanged — the assertion fires inside the first assignment
of `fit`, before `pairs_`, `index`, `threshold_` or `clusters` are touched,
so the object state after the exception equals the state before the call. -/
theorem C9_fit_error_preserves_state (minimizer : (ℚ → ℚ) → ℚ)
    (st : SimState) (n : ℕ) (d : ℕ → ℕ → ℚ)
    (pairsArg : Option (List (ℕ × ℕ × ℚ))) (hlt : n < st.blockWidth) :
    (fit minimizer st n d pairsArg).1 = st := by
  have herr : nInstancesSetter st n =
      Except.error "The block width should be less than " := by
    unfold nInstancesSetter
    rw [if_neg (by omega)]
  unfold fit
  rw [herr]

theorem C9_witness :
    (fit (fun _ => 1 / 2) sampleFittedState 1 (fun _ _ => 1 / 2) none).1 =
      sampleFittedState :=
  C9_fit_error_preserves_state (fun _ => 1 / 2) sampleFittedState 1
    (fun _ _ => 1 / 2) none (by decide)

/-! ### Splitter (`SimThresholdSplit.split` and helpers)

The random shuffle `np.random.permutation(nums.index)` is abstracted as an
arbitrary duplicate-free reordering `perm` of the distinct cluster ids;
the theorems hold for every such reordering.  The requested weights are a
list of rationals (`_split_sizes` divides exactly over `ℚ`, matching
Python 3 true division). -/

/-- Model of `_split_sizes`: target sizes `n * rat / tot` proportional to the
requested weights. -/
def splitSizes (n : ℕ) (weights : List ℚ) : List ℚ :=
  let tot := weights.sum
  weights.map (fun rat => (n : ℚ) * rat / tot)

/-- The loop's lower bound: `0 if i == 0 else sum(ratio[:i])`. -/
def lowerFor (sizes : List ℚ) (i : ℕ) : ℚ :=
  if i = 0 then 0 else (sizes.take i).sum

/-- The loop's upper bound: `ratio if i == len(ratio) else sum(ratio[:i+1])`.
The `i == len(ratio)` branch assigns the list itself (not a scalar) and is
unreachable for `i in range(len(ratio))`; it is rendered as `none`. -/
def upperFor (sizes : List ℚ) (i : ℕ) : Option ℚ :=
  if i = sizes.length then none else some ((sizes.take (i + 1)).sum)

/-- The assignment loop of `split` for a single cumulative count `v`:
iterate `i` over `range(len(ratio))` and overwrite the slot with `i`
whenever `lower < v <= upper`; slots never matched stay `NaN` (`none`). -/
def assignSplit (sizes : List ℚ) (v : ℚ) : Option ℕ :=
  (List.range sizes.length).foldl
    (fun acc i =>
      match upperFor sizes i with
      | some upper => if lowerFor sizes i < v ∧ v ≤ upper then some i else acc
      | none => acc)
    none

/-- Model of `self.clusters.value_counts()` reindexed by the shuffled cluster ids
and `cumsum`ed: walk `perm` accumulating each cluster's item count,
producing (cluster id, cumulative count) rows in shuffle order. -/
def cumCounts (clusters : List ℕ) : List ℕ → ℕ → List (ℕ × ℕ)
  | [], _ => []
  | c :: rest, acc =>
    (c, acc + clusters.count c) :: cumCounts clusters rest (acc + clusters.count c)

/-- Item `k`'s split after the join `clusters.to_frame().join(res, on='clusters')`:
look up its cluster id, that cluster's cumulative count, and the
assignment-loop result for it (`none` models `NaN`). -/
def splitOfItem (clusters perm : List ℕ) (sizes : List ℚ) (k : ℕ) : Option ℕ :=
  match clusters.get? k with
  | none => none
  | some c =>
    match (cumCounts clusters perm 0).lookup c with
    | none => none
    | some v => assignSplit sizes (v : ℚ)

/-- Model of `split(ratio)`: the generator `(res == i for i in range(len(ratio)))`
as a list of boolean masks over items `0..n-1` (`NaN == i` is `False`). -/
def splitMasks (n : ℕ) (clusters perm : List ℕ) (weights : List ℚ) :
    List (List Bool) :=
  let sizes := splitSizes n weights
  (List.range weights.length).map (fun i =>
    (List.range n).map (fun k => splitOfItem clusters perm sizes k == some i))

/-- Mask lookup with pandas-like defaults: a missing mask or item is `false`. -/
def maskAt (n : ℕ) (clusters perm : List ℕ) (weights : List ℚ)
    (i k : ℕ) : Bool :=
  ((splitMasks n clusters perm weights).getD i []).getD k false

/-- C10: for every split index `i` drawn from `range(len(ratio))` the
condition `i == len(ratio)` is false, so the unreachable branch (which
would assign the whole list as the bound) is never taken and the upper
bound for bucket `i` is always the prefix sum `sum(ratio[:i+1])`. -/
theorem C10_upper_bound_branch_unreachable (sizes : List ℚ) (i : ℕ)
    (hi : i ∈ List.range sizes.length) :
    i ≠ sizes.length ∧ upperFor sizes i = some ((sizes.take (i + 1)).sum) := by
  rw [List.mem_range] at hi
  have hne : i ≠ sizes.length := by omega
  exact ⟨hne, by unfold upperFor; rw [if_neg hne]⟩

theorem C10_witness :
    (0 : ℕ) ≠ ([1, 1] : List ℚ).length ∧
      upperFor [1, 1] 0 = some ((([1, 1] : List ℚ).take 1).sum) :=
  C10_upper_bound_branch_unreachable [1, 1] 0 (by decide)

lemma lowerFor_eq (sizes : List ℚ) (i : ℕ) :
    lowerFor sizes i = (sizes.take i).sum := by
  unfold lowerFor
  by_cases hi : i = 0
  · subst hi; simp
  · rw [if_neg hi]

lemma sum_take_le_sum {l : List ℚ} (n : ℕ) (h : ∀ x ∈ l, 0 ≤ x) :
    (l.take n).sum ≤ l.sum := by
  have h1 := List.sum_take_add_sum_drop l n
  have h2 : 0 ≤ (l.drop n).sum :=
    List.sum_nonneg (fun x hx => h x (List.drop_subset n l hx))
  linarith

lemma sum_take_mono {l : List ℚ} {i j : ℕ} (hij : i ≤ j)
    (h : ∀ x ∈ l, 0 ≤ x) : (l.take i).sum ≤ (l.take j).sum := by
  have heq : (l.take j).take i = l.take i := by
    rw [List.take_take]
    congr 1
    omega
  rw [← heq]
  exact sum_take_le_sum i (fun x hx => h x (List.take_subset j l hx))

/-- The half-open intervals `(sum(sizes[:i]), sum(sizes[:i+1])]` of the
nonnegative sizes contain each value `0 < v ≤ sum(sizes)` for at least one
bucket index. -/
lemma interval_exists : ∀ (sizes : List ℚ), (∀ s ∈ sizes, 0 ≤ s) →
    ∀ v : ℚ, 0 < v → v ≤ sizes.sum →
    ∃ i, i < sizes.length ∧ (sizes.take i).sum < v ∧
      v ≤ (sizes.take (i + 1)).sum
  | [], _, v, hv0, hvs => by
    simp only [List.sum_nil] at hvs
    linarith
  | s :: rest, hnn, v, hv0, hvs => by
    by_cases hc : v ≤ s
    · refine ⟨0, by simp, by simpa using hv0, ?_⟩
      rw [List.take_succ_cons, List.take_zero]
      simpa using hc
    · have hs0 : 0 ≤ s := hnn s (by simp)
      have hrest : ∀ x ∈ rest, 0 ≤ x := fun x hx =>
        hnn x (List.mem_cons_of_mem _ hx)
      have hsum : v - s ≤ rest.sum := by
        rw [List.sum_cons] at hvs
        linarith
      obtain ⟨i, hi, hlo, hhi⟩ := interval_exists rest hrest (v - s)
        (by linarith [lt_of_not_le hc]) hsum
      refine ⟨i + 1, by simpa using hi, ?_, ?_⟩
      · rw [List.take_succ_cons, List.sum_cons]
        linarith
      · rw [List.take_succ_cons, List.sum_cons]
        linarith

/-- At most one bucket interval contains a given value. -/
lemma interval_unique {sizes : List ℚ} (hnn : ∀ s ∈ sizes, 0 ≤ s) {v : ℚ}
    {i j : ℕ}
    (hi : (sizes.take i).sum < v ∧ v ≤ (sizes.take (i + 1)).sum)
    (hj : (sizes.take j).sum < v ∧ v ≤ (sizes.take (j + 1)).sum) : i = j := by
  by_contra hne
  rcases Nat.lt_or_ge i j with hlt | hge
  · have : (sizes.take (i + 1)).sum ≤ (sizes.take j).sum :=
      sum_take_mono (by omega) hnn
    linarith [hi.2, hj.1]
  · have hlt : j < i := by omega
    have : (sizes.take (j + 1)).sum ≤ (sizes.take i).sum :=
      sum_take_mono (by omega) hnn
    linarith [hj.2, hi.1]

lemma splitSizes_nonneg {n : ℕ} {weights : List ℚ}
    (hw : ∀ r ∈ weights, 0 ≤ r) (hsum : 0 < weights.sum) :
    ∀ s ∈ splitSizes n weights, 0 ≤ s := by
  intro s hs
  unfold splitSizes at hs
  rw [List.mem_map] at hs
  obtain ⟨r, hr, hrs⟩ := hs
  rw [← hrs]
  have := hw r hr
  positivity

lemma splitSizes_length (n : ℕ) (weights : List ℚ) :
    (splitSizes n weights).length = weights.length := by
  unfold splitSizes
  rw [List.length_map]

lemma splitSizes_sum {n : ℕ} {weights : List ℚ} (hsum : 0 < weights.sum) :
    (splitSizes n weights).sum = (n : ℚ) := by
  unfold splitSizes
  have hmap : ∀ (l : List ℚ),
      (l.map (fun rat => (n : ℚ) * rat / weights.sum)).sum =
        (n : ℚ) / weights.sum * l.sum := by
    intro l
    induction l with
    | nil => simp
    | cons a l ih =>
      rw [List.map_cons, List.sum_cons, List.sum_cons, ih]
      field_simp
      ring
  rw [hmap weights]
  field_simp

/-- One slot update of the assignment loop, named for reasoning. -/
def assignStep (sizes : List ℚ) (v : ℚ) (acc : Option ℕ) (i : ℕ) : Option ℕ :=
  match upperFor sizes i with
  | some upper => if lowerFor sizes i < v ∧ v ≤ upper then some i else acc
  | none => acc

lemma assignSplit_eq_foldl (sizes : List ℚ) (v : ℚ) :
    assignSplit sizes v =
      (List.range sizes.length).foldl (assignStep sizes v) none := rfl

/-- The condition under which the loop writes bucket `i`. -/
def BucketHit (sizes : List ℚ) (v : ℚ) (i : ℕ) : Prop :=
  (sizes.take i).sum < v ∧ v ≤ (sizes.take (i + 1)).sum

instance (sizes : List ℚ) (v : ℚ) (i : ℕ) : Decidable (BucketHit sizes v i) :=
  inferInstanceAs (Decidable (_ ∧ _))

lemma assignStep_eq (sizes : List ℚ) (v : ℚ) (acc : Option ℕ) {i : ℕ}
    (hi : i ≠ sizes.length) :
    assignStep sizes v acc i =
      if BucketHit sizes v i then some i else acc := by
  unfold assignStep upperFor BucketHit
  rw [if_neg hi, lowerFor_eq]

lemma assign_foldl_keep (sizes : List ℚ) (v : ℚ) (j : ℕ) :
    ∀ L : List ℕ, (∀ i ∈ L, i ≠ sizes.length) →
      (∀ i ∈ L, BucketHit sizes v i → i = j) →
      L.foldl (assignStep sizes v) (some j) = some j
  | [], _, _ => rfl
  | a :: L, hne, huniq => by
    rw [List.foldl_cons, assignStep_eq sizes v _ (hne a (by simp))]
    by_cases hhit : BucketHit sizes v a
    · rw [if_pos hhit, huniq a (by simp) hhit]
      exact assign_foldl_keep sizes v j L (fun i hi => hne i (by simp [hi]))
        (fun i hi => huniq i (by simp [hi]))
    · rw [if_neg hhit]
      exact assign_foldl_keep sizes v j L (fun i hi => hne i (by simp [hi]))
        (fun i hi => huniq i (by simp [hi]))

lemma assign_foldl_of_unique (sizes : List ℚ) (v : ℚ) (j : ℕ)
    (hj : BucketHit sizes v j) :
    ∀ (L : List ℕ) (acc : Option ℕ), (∀ i ∈ L, i ≠ sizes.length) → j ∈ L →
      (∀ i ∈ L, BucketHit sizes v i → i = j) →
      L.foldl (assignStep sizes v) acc = some j
  | [], acc, _, hjL, _ => absurd hjL (by simp)
  | a :: L, acc, hne, hjL, huniq => by
    rw [List.foldl_cons, assignStep_eq sizes v _ (hne a (by simp))]
    by_cases hhit : BucketHit sizes v a
    · rw [if_pos hhit]
      have ha : a = j := huniq a (by simp) hhit
      rw [ha]
      exact assign_foldl_keep sizes v j L (fun i hi => hne i (by simp [hi]))
        (fun i hi => huniq i (by simp [hi]))
    · rw [if_neg hhit]
      have hjL' : j ∈ L := by
        rcases List.mem_cons.mp hjL with heq | hmem
        · exact absurd (heq ▸ hj) hhit
        · exact hmem
      exact assign_foldl_of_unique sizes v j hj L acc
        (fun i hi => hne i (by simp [hi])) hjL'
        (fun i hi => huniq i (by simp [hi]))

/-- For `0 < v ≤ sum(sizes)` with nonnegative sizes, the assignment loop
returns exactly the unique bucket whose interval contains `v`. -/
lemma assignSplit_spec {sizes : List ℚ} (hnn : ∀ s ∈ sizes, 0 ≤ s) {v : ℚ}
    (hv0 : 0 < v) (hvs : v ≤ sizes.sum) :
    ∃ j, j < sizes.length ∧ BucketHit sizes v j ∧
      assignSplit sizes v = some j := by
  obtain ⟨j, hjlen, hlo, hhi⟩ := interval_exists sizes hnn v hv0 hvs
  refine ⟨j, hjlen, ⟨hlo, hhi⟩, ?_⟩
  rw [assignSplit_eq_foldl]
  exact assign_foldl_of_unique sizes v j ⟨hlo, hhi⟩ _ none
    (fun i hi => by rw [List.mem_range] at hi; omega)
    (by rw [List.mem_range]; exact hjlen)
    (fun i _ hhit => interval_unique hnn hhit ⟨hlo, hhi⟩)

/-- Looking up any shuffled cluster id in the cumulative-count table
succeeds, and the value is at least the cluster's own count and at most
the accumulator plus the total count over the shuffle. -/
lemma cumCounts_lookup (clusters : List ℕ) :
    ∀ (perm : List ℕ) (acc c : ℕ), c ∈ perm →
      ∃ v, (cumCounts clusters perm acc).lookup c = some v ∧
        clusters.count c ≤ v ∧
        v ≤ acc + (perm.map (fun x => clusters.count x)).sum
  | [], _, c, hc => absurd hc (by simp)
  | chead :: rest, acc, c, hc => by
    unfold cumCounts
    by_cases hceq : c = chead
    · refine ⟨acc + clusters.count chead, ?_, ?_, ?_⟩
      · simp [List.lookup, hceq]
      · subst hceq; omega
      · rw [List.map_cons, List.sum_cons]
        have : 0 ≤ (rest.map (fun x => clusters.count x)).sum :=
          List.sum_nonneg (fun x hx => Nat.zero_le x)
        omega
    · have hcrest : c ∈ rest := by
        rcases List.mem_cons.mp hc with heq | hmem
        · exact absurd heq hceq
        · exact hmem
      obtain ⟨v, hl, hlo, hhi⟩ :=
        cumCounts_lookup clusters rest (acc + clusters.count chead) c hcrest
      refine ⟨v, ?_, hlo, ?_⟩
      · have hbeq : (c == chead) = false := by
          simp [hceq]
        simp [List.lookup, hbeq, hl]
      · rw [List.map_cons, List.sum_cons]
        omega

/-- The distinct-id counts of a label list sum to its length. -/
lemma sum_counts_dedup (clusters : List ℕ) :
    (clusters.dedup.map (fun c => clusters.count c)).sum = clusters.length := by
  have h1 : clusters.dedup.toFinset.sum (fun c => clusters.count c) =
      (clusters.dedup.map (fun c => clusters.count c)).sum :=
    List.sum_toFinset _ (List.nodup_dedup clusters)
  have h2 : clusters.dedup.toFinset = clusters.toFinset := by
    apply Finset.ext
    intro a
    simp [List.mem_toFinset, List.mem_dedup]
  rw [← h1, h2]
  simp [Multiset.coe_count, Multiset.coe_card]

lemma get?_eq_some_getD {l : List ℕ} {k : ℕ} (hk : k < l.length) :
    l.get? k = some (l.getD k 0) := by
  rw [List.get?_eq_getElem?, List.getElem?_eq_getElem hk,
    List.getD_eq_getElem?_getD, List.getElem?_eq_getElem hk]
  rfl

/-- Every in-range item receives exactly one bucket from the assignment
pipeline: cluster lookup, cumulative count, interval search. -/
lemma splitOfItem_spec {n : ℕ} {clusters perm : List ℕ} {weights : List ℚ}
    (hlen : clusters.length = n) (hperm : perm.Perm clusters.dedup)
    (hw : ∀ r ∈ weights, 0 ≤ r) (hsum : 0 < weights.sum)
    {k : ℕ} (hk : k < n) :
    ∃ i, i < weights.length ∧
      splitOfItem clusters perm (splitSizes n weights) k = some i := by
  have hklen : k < clusters.length := by omega
  have hc : clusters.get? k = some (clusters.getD k 0) := get?_eq_some_getD hklen
  set c := clusters.getD k 0 with hcdef
  have hcmem : c ∈ clusters := List.get?_mem hc
  have hcperm : c ∈ perm := hperm.mem_iff.mpr (List.mem_dedup.mpr hcmem)
  obtain ⟨v, hl, hvlo, hvhi⟩ := cumCounts_lookup clusters perm 0 c hcperm
  have hcount : 0 < clusters.count c := List.count_pos_iff.mpr hcmem
  have hperm_sum : (perm.map (fun x => clusters.count x)).sum =
      clusters.length := by
    rw [(hperm.map (fun x => clusters.count x)).sum_eq]
    exact sum_counts_dedup clusters
  have hvn : v ≤ n := by
    rw [hperm_sum] at hvhi
    omega
  have hv0 : (0 : ℚ) < (v : ℚ) := by
    have : 0 < v := by omega
    exact_mod_cast this
  have hvs : (v : ℚ) ≤ (splitSizes n weights).sum := by
    rw [splitSizes_sum hsum]
    exact_mod_cast hvn
  obtain ⟨j, hjlen, _, hassign⟩ :=
    assignSplit_spec (splitSizes_nonneg hw hsum) hv0 hvs
  rw [splitSizes_length] at hjlen
  refine ⟨j, hjlen, ?_⟩
  unfold splitOfItem
  rw [hc]
  dsimp only
  rw [hl]
  exact hassign

lemma getD_map_range {α : Type} (f : ℕ → α) (dflt : α) {m i : ℕ}
    (hi : i < m) : ((List.range m).map f).getD i dflt = f i := by
  rw [List.getD_eq_getElem?_getD, List.getElem?_map, List.getElem?_range hi]
  rfl

lemma maskAt_eq {n : ℕ} {clusters perm : List ℕ} {weights : List ℚ}
    {i k : ℕ} (hi : i < weights.length) (hk : k < n) :
    maskAt n clusters perm weights i k =
      (splitOfItem clusters perm (splitSizes n weights) k == some i) := by
  unfold maskAt splitMasks
  dsimp only
  rw [getD_map_range _ _ hi, getD_map_range _ _ hk]

lemma maskAt_out_of_range {n : ℕ} {clusters perm : List ℕ}
    {weights : List ℚ} {i : ℕ} (hi : weights.length ≤ i) (k : ℕ) :
    maskAt n clusters perm weights i k = false := by
  unfold maskAt
  have hml : (splitMasks n clusters perm weights).length = weights.length := by
    unfold splitMasks
    dsimp only
    rw [List.length_map, List.length_range]
  rw [List.getD_eq_default _ _ (by omega : (splitMasks n clusters perm weights).length ≤ i)]
  rfl

/-- C1 (amended): for every item count n, every fitted cluster assignment,
every shuffle of the distinct cluster ids and every ratio tuple of
nonnegative weights *with positive sum*, the masks returned by `split`
partition the items exactly (each item lies in exactly one mask) and items
sharing a cluster-id share every mask.  The positive-sum restriction is
forced: with the empty ratio tuple the code returns no masks at all (see
the counterexample), and with a zero-sum nonempty tuple `_split_sizes`
divides by zero. -/
theorem C1_split_masks_partition (n : ℕ) (clusters perm : List ℕ)
    (weights : List ℚ) (hlen : clusters.length = n)
    (hperm : perm.Perm clusters.dedup) (hw : ∀ r ∈ weights, 0 ≤ r)
    (hsum : 0 < weights.sum) (k : ℕ) (hk : k < n) :
    (∃! i, i < weights.length ∧ maskAt n clusters perm weights i k = true) ∧
    (∀ l, l < n → clusters.getD k 0 = clusters.getD l 0 →
      ∀ i, maskAt n clusters perm weights i k =
        maskAt n clusters perm weights i l) := by
  obtain ⟨i0, hi0, hs0⟩ := splitOfItem_spec hlen hperm hw hsum hk
  constructor
  · refine ⟨i0, ⟨hi0, ?_⟩, ?_⟩
    · rw [maskAt_eq hi0 hk, hs0]
      simp
    · rintro i' ⟨hi', hmask⟩
      rw [maskAt_eq hi' hk, beq_iff_eq, hs0] at hmask
      exact (Option.some_inj.mp hmask).symm
  · intro l hl hcl i
    have hkc : clusters.get? k = some (clusters.getD k 0) :=
      get?_eq_some_getD (by omega)
    have hlc : clusters.get? l = some (clusters.getD l 0) :=
      get?_eq_some_getD (by omega)
    by_cases hi : i < weights.length
    · rw [maskAt_eq hi hk, maskAt_eq hi hl]
      have hsame : splitOfItem clusters perm (splitSizes n weights) k =
          splitOfItem clusters perm (splitSizes n weights) l := by
        unfold splitOfItem
        rw [hkc, hlc, hcl]
      rw [hsame]
    · rw [maskAt_out_of_range (by omega) k, maskAt_out_of_range (by omega) l]

theorem C1_witness :
    (∃! i, i < ([1, 1] : List ℚ).length ∧ maskAt 3 [0, 0, 2] [2, 0] [1, 1] i 0 = true) ∧
    (∀ l, l < 3 → ([0, 0, 2] : List ℕ).getD 0 0 = ([0, 0, 2] : List ℕ).getD l 0 →
      ∀ i, maskAt 3 [0, 0, 2] [2, 0] [1, 1] i 0 =
        maskAt 3 [0, 0, 2] [2, 0] [1, 1] i l) :=
  C1_split_masks_partition 3 [0, 0, 2] [2, 0] [1, 1] (by decide) (by decide)
    (by intro r hr; rcases List.mem_cons.mp hr with h | h
        · rw [h]; norm_num
        · rcases List.mem_cons.mp h with h2 | h2
          · rw [h2]; norm_num
          · simp at h2)
    (by norm_num) 0 (by decide)

/-- C1 counterexample: the claim as stated quantifies over *every* ratio
tuple of nonnegative weights.  With the empty ratio tuple `()` on a
one-item dataset, `split` returns no masks at all, so the item belongs to
no mask and the masks do not cover the item set. -/
theorem C1_counterexample :
    splitMasks 1 [0] [0] [] = [] ∧
      ¬∃ i, maskAt 1 [0] [0] [] i 0 = true := by
  constructor
  · rfl
  · rintro ⟨i, hmask⟩
    have : maskAt 1 [0] [0] [] i 0 = false :=
      maskAt_out_of_range (by simp) 0
    rw [this] at hmask
    exact Bool.false_ne_true hmask
